import Mathlib

/-!
Verification of the terrain core of `src/terrain.rs`: the lattice `hash`,
the value-noise primitive `noise` with its analytic gradient, the 11-octave
fractal accumulator `fbm`, the per-vertex `sample` function, and the mesh
assembly performed by `setup_terrain`.

Real-number arithmetic models the source's floating-point arithmetic
exactly; the unsigned 32-bit integer core of `hash` is modelled on `Nat`
with explicit reduction modulo 2^32.
-/

namespace Terrain

noncomputable section

/-- 2^32, the modulus of the unsigned 32-bit arithmetic in `hash`. -/
def m32 : ℕ := 4294967296

/-- Rust `as i32` cast of a floored coordinate: saturates to the `i32` range. -/
def i32sat (n : ℤ) : ℤ := max (-2147483648) (min 2147483647 n)

/-- Rust `as u32` reinterpretation of an `i32` value: reduction modulo 2^32. -/
def u32ofI32 (n : ℤ) : ℕ := (n % (m32 : ℤ)).toNat

/-- The 32-bit core of `hash`: the seed combined with the two lattice
coordinates by wrapping multiply-add, then the avalanche step
`h ^= h >> 13; h = h.wrapping_mul(1274126177)`, all modulo 2^32. -/
def hashU32 (ix iy : ℤ) : ℕ :=
  let g : ℕ := (3266489917 + u32ofI32 ix * 374761393 + u32ofI32 iy * 668265263) % m32
  let h : ℕ := g ^^^ (g >>> 13)
  (h * 1274126177) % m32

/-- `hash` evaluated at an integer lattice corner `(i, j)`: the 32-bit result
mapped to a real number by dividing by 2^32 (the source's
`(h as f32) * (1.0 / 4294967296.0)`). -/
def hashCell (i j : ℤ) : ℝ := (hashU32 (i32sat i) (i32sat j) : ℝ) / m32

/-- `hash`: floor the input coordinates to the integer lattice, then hash. -/
def hash (p : ℝ × ℝ) : ℝ := hashCell ⌊p.1⌋ ⌊p.2⌋

/-- `smoothstep(x) = x * x * (3.0 - 2.0 * x)`. -/
def smoothstep (x : ℝ) : ℝ := x * x * (3 - 2 * x)

/-- `Vec2::floor`, component-wise floor. -/
def floorv (t : ℝ × ℝ) : ℝ × ℝ := ((⌊t.1⌋ : ℝ), (⌊t.2⌋ : ℝ))

/-- `Vec2::fract_gl`, the floor-based fractional part `v - v.floor()`. -/
def fractGl (t : ℝ × ℝ) : ℝ × ℝ := (t.1 - (⌊t.1⌋ : ℝ), t.2 - (⌊t.2⌋ : ℝ))

/-- `noise`: hash the four corners of the enclosing lattice cell, interpolate
with `smoothstep`, and return the value together with its analytic gradient,
exactly as in the source. -/
def noise (t : ℝ × ℝ) : ℝ × (ℝ × ℝ) :=
  let p := floorv t
  let a := hash (p + (0, 0))
  let b := hash (p + (1, 0))
  let c := hash (p + (0, 1))
  let d := hash (p + (1, 1))
  let k0 := a
  let k1 := b - a
  let k2 := c - a
  let k3 := a - b - c + d
  let w := fractGl t
  let sx := smoothstep w.1
  let sz := smoothstep w.2
  let value := k0 + k1 * sx + k2 * sz + k3 * sx * sz
  let ds : ℝ × ℝ := (6 * w.1 * (1 - w.1), 6 * w.2 * (1 - w.2))
  let dx := ds.1 * (k1 + k3 * sz)
  let dy := ds.2 * (k2 + k3 * sx)
  (value, (dx, dy))

/-- A 2x2 real matrix with row-major entries, modelling `glam::Mat2`. -/
@[ext]
structure Mat2 where
  a : ℝ
  b : ℝ
  c : ℝ
  d : ℝ

namespace Mat2

/-- Matrix-vector product. -/
def mulVec (m : Mat2) (v : ℝ × ℝ) : ℝ × ℝ :=
  (m.a * v.1 + m.b * v.2, m.c * v.1 + m.d * v.2)

/-- Matrix-matrix product. -/
def mul (m n : Mat2) : Mat2 :=
  ⟨m.a * n.a + m.b * n.c, m.a * n.b + m.b * n.d,
   m.c * n.a + m.d * n.c, m.c * n.b + m.d * n.d⟩

/-- Transpose. -/
def transpose (m : Mat2) : Mat2 := ⟨m.a, m.c, m.b, m.d⟩

instance : One Mat2 := ⟨⟨1, 0, 0, 1⟩⟩

instance : Mul Mat2 := ⟨mul⟩

instance : SMul ℝ Mat2 := ⟨fun k m => ⟨k * m.a, k * m.b, k * m.c, k * m.d⟩⟩

@[simp] theorem mul_a (m n : Mat2) : (m * n).a = m.a * n.a + m.b * n.c := rfl

@[simp] theorem mul_b (m n : Mat2) : (m * n).b = m.a * n.b + m.b * n.d := rfl

@[simp] theorem mul_c (m n : Mat2) : (m * n).c = m.c * n.a + m.d * n.c := rfl

@[simp] theorem mul_d (m n : Mat2) : (m * n).d = m.c * n.b + m.d * n.d := rfl

@[simp] theorem one_a : (1 : Mat2).a = 1 := rfl

@[simp] theorem one_b : (1 : Mat2).b = 0 := rfl

@[simp] theorem one_c : (1 : Mat2).c = 0 := rfl

@[simp] theorem one_d : (1 : Mat2).d = 1 := rfl

@[simp] theorem smul_a (k : ℝ) (m : Mat2) : (k • m).a = k * m.a := rfl

@[simp] theorem smul_b (k : ℝ) (m : Mat2) : (k • m).b = k * m.b := rfl

@[simp] theorem smul_c (k : ℝ) (m : Mat2) : (k • m).c = k * m.c := rfl

@[simp] theorem smul_d (k : ℝ) (m : Mat2) : (k • m).d = k * m.d := rfl

@[simp] theorem mulVec_fst (m : Mat2) (v : ℝ × ℝ) :
    (m.mulVec v).1 = m.a * v.1 + m.b * v.2 := rfl

@[simp] theorem mulVec_snd (m : Mat2) (v : ℝ × ℝ) :
    (m.mulVec v).2 = m.c * v.1 + m.d * v.2 := rfl

@[simp] theorem transpose_a (m : Mat2) : m.transpose.a = m.a := rfl

@[simp] theorem transpose_b (m : Mat2) : m.transpose.b = m.c := rfl

@[simp] theorem transpose_c (m : Mat2) : m.transpose.c = m.b := rfl

@[simp] theorem transpose_d (m : Mat2) : m.transpose.d = m.d := rfl

instance : Monoid Mat2 where
  mul_assoc x y z := by ext <;> simp <;> ring
  one_mul x := by ext <;> simp
  mul_one x := by ext <;> simp

theorem mulVec_mulVec (m n : Mat2) (v : ℝ × ℝ) :
    m.mulVec (n.mulVec v) = (m * n).mulVec v := by
  simp [mulVec]; constructor <;> ring

theorem transpose_mul (m n : Mat2) :
    (m * n).transpose = n.transpose * m.transpose := by
  ext <;> simp <;> ring

theorem transpose_pow (m : Mat2) (k : ℕ) :
    (m ^ k).transpose = m.transpose ^ k := by
  induction k with
  | zero => simp [pow_zero]; ext <;> simp [transpose]
  | succ n ih => rw [pow_succ, transpose_mul, ih, pow_succ']

end Mat2

/-- The constant `ROTATION`, `Mat2::from_cols_array(&[0.8, 0.6, -0.6, 0.8])`:
columns `(0.8, 0.6)` and `(-0.6, 0.8)`.  The float literals `0.8` and `0.6`
are the exact rationals 4/5 and 3/5 in this model. -/
def rotBase : Mat2 := ⟨4 / 5, -(3 / 5), 3 / 5, 4 / 5⟩

/-- The constant `ROTATION_TRANSPOSE`,
`Mat2::from_cols_array(&[0.8, -0.6, 0.6, 0.8])`. -/
def rotBaseT : Mat2 := ⟨4 / 5, 3 / 5, -(3 / 5), 4 / 5⟩

/-- The state carried by the `fbm` loop: current sample point `p`, current
amplitude `scale`, the rotation accumulator `rot`, and the running value and
derivative sums. -/
@[ext]
structure FbmState where
  p : ℝ × ℝ
  scale : ℝ
  rot : Mat2
  value : ℝ
  deriv : ℝ × ℝ

/-- One iteration of the `fbm` loop body, in the source's order: accumulate
value and derivative with the current state, then halve the amplitude and
advance the point and the rotation accumulator. -/
def fbmStep (s : FbmState) : FbmState :=
  let nd := noise s.p
  { p := (2 : ℝ) • rotBase.mulVec s.p
    scale := s.scale / 2
    rot := ((2 : ℝ) • rotBaseT) * s.rot
    value := s.value + s.scale * nd.1
    deriv := s.deriv + s.scale • s.rot.mulVec nd.2 }

/-- `n` iterations of the `fbm` loop. -/
def fbmLoop : ℕ → FbmState → FbmState
  | 0, s => s
  | n + 1, s => fbmLoop n (fbmStep s)

/-- The initial `fbm` loop state for a given input point. -/
def fbmInit (point : ℝ × ℝ) : FbmState := ⟨point, 1, 1, 0, (0, 0)⟩

/-- `fbm`: 11 octaves of rotated, scaled value noise, returning the summed
value and the accumulated analytic derivative. -/
def fbm (point : ℝ × ℝ) : ℝ × (ℝ × ℝ) :=
  let s := fbmLoop 11 (fbmInit point)
  (s.value, s.deriv)

/-- Squared Euclidean norm of a 3-vector. -/
def norm3Sq (v : ℝ × ℝ × ℝ) : ℝ := v.1 ^ 2 + v.2.1 ^ 2 + v.2.2 ^ 2

/-- `Vec3::normalize`: division by the Euclidean length. -/
def normalize3 (v : ℝ × ℝ × ℝ) : ℝ × ℝ × ℝ :=
  (v.1 / Real.sqrt (norm3Sq v), v.2.1 / Real.sqrt (norm3Sq v),
   v.2.2 / Real.sqrt (norm3Sq v))

/-- The height component of `sample`: `fbm((x, z) / scale).value * amplitude`
with the source's constants `amplitude = 300`, `scale = 800`. -/
def sampleH (x z : ℝ) : ℝ := (fbm (x / 800, z / 800)).1 * 300

/-- The vector `(-adjusted_d.x, 1.0, -adjusted_d.y)` that `sample` hands to
`normalize`, where `adjusted_d = fbm((x, z) / scale).gradient * amplitude / scale`. -/
def samplePreNormal (x z : ℝ) : ℝ × ℝ × ℝ :=
  (-((fbm (x / 800, z / 800)).2.1 * 300 / 800), 1,
   -((fbm (x / 800, z / 800)).2.2 * 300 / 800))

/-- `sample`: terrain height and unit surface normal at world coordinates. -/
def sample (x z : ℝ) : ℝ × (ℝ × ℝ × ℝ) :=
  (sampleH x z, normalize3 (samplePreNormal x z))

/-- Grid vertex position for `(row, col)` at a given resolution:
`x = row - resolution/2`, `z = col - resolution/2`, `y` the sampled height. -/
def vertexPos (res row col : ℕ) : ℝ × ℝ × ℝ :=
  ((row : ℝ) - (res : ℝ) / 2,
   sampleH ((row : ℝ) - (res : ℝ) / 2) ((col : ℝ) - (res : ℝ) / 2),
   (col : ℝ) - (res : ℝ) / 2)

/-- Grid vertex normal for `(row, col)`: the normal component of `sample`. -/
def vertexNormal (res row col : ℕ) : ℝ × ℝ × ℝ :=
  (sample ((row : ℝ) - (res : ℝ) / 2) ((col : ℝ) - (res : ℝ) / 2)).2

/-- The position buffer built by `setup_terrain`: a row-major double loop,
`row` outer and `col` inner, each from `0` to `resolution` inclusive. -/
def meshPositions (res : ℕ) : List (ℝ × ℝ × ℝ) :=
  (List.range (res + 1)).flatMap fun row =>
    (List.range (res + 1)).map fun col => vertexPos res row col

/-- The normal buffer built by `setup_terrain`, pushed in the same loop order. -/
def meshNormals (res : ℕ) : List (ℝ × ℝ × ℝ) :=
  (List.range (res + 1)).flatMap fun row =>
    (List.range (res + 1)).map fun col => vertexNormal res row col

/-- The six indices `setup_terrain` pushes for quad `(row, col)`:
`top_left, top_right, bottom_left`, then `top_right, bottom_right, bottom_left`. -/
def quadIndices (res row col : ℕ) : List ℕ :=
  [row * (res + 1) + col, row * (res + 1) + col + 1,
   (row + 1) * (res + 1) + col,
   row * (res + 1) + col + 1, (row + 1) * (res + 1) + col + 1,
   (row + 1) * (res + 1) + col]

/-- The index buffer built by `setup_terrain`: a double loop over the quads,
`row` outer and `col` inner, each from `0` to `resolution` exclusive. -/
def meshIndices (res : ℕ) : List ℕ :=
  (List.range res).flatMap fun row =>
    (List.range res).flatMap fun col => quadIndices res row col

/-- The mesh construction of `setup_terrain` as a pure function of the grid
resolution: position buffer, normal buffer and index buffer. -/
def buildMesh (res : ℕ) : List (ℝ × ℝ × ℝ) × List (ℝ × ℝ × ℝ) × List ℕ :=
  (meshPositions res, meshNormals res, meshIndices res)

/-- The closed form taken by the noise value on lattice cell `(cx, cy)`:
the bilinear-basis interpolation of the four corner hashes. -/
def npoly (cx cy : ℤ) (t : ℝ × ℝ) : ℝ :=
  hashCell cx cy
    + (hashCell (cx + 1) cy - hashCell cx cy) * smoothstep (t.1 - (cx : ℝ))
    + (hashCell cx (cy + 1) - hashCell cx cy) * smoothstep (t.2 - (cy : ℝ))
    + (hashCell cx cy - hashCell (cx + 1) cy - hashCell cx (cy + 1)
         + hashCell (cx + 1) (cy + 1))
        * smoothstep (t.1 - (cx : ℝ)) * smoothstep (t.2 - (cy : ℝ))

/-- The gradient of `npoly` on lattice cell `(cx, cy)`. -/
def npolyGrad (cx cy : ℤ) (t : ℝ × ℝ) : ℝ × ℝ :=
  (6 * (t.1 - (cx : ℝ)) * (1 - (t.1 - (cx : ℝ))) *
     ((hashCell (cx + 1) cy - hashCell cx cy)
        + (hashCell cx cy - hashCell (cx + 1) cy - hashCell cx (cy + 1)
             + hashCell (cx + 1) (cy + 1)) * smoothstep (t.2 - (cy : ℝ))),
   6 * (t.2 - (cy : ℝ)) * (1 - (t.2 - (cy : ℝ))) *
     ((hashCell cx (cy + 1) - hashCell cx cy)
        + (hashCell cx cy - hashCell (cx + 1) cy - hashCell cx (cy + 1)
             + hashCell (cx + 1) (cy + 1)) * smoothstep (t.1 - (cx : ℝ))))

/-- A 2-vector viewed as a continuous linear functional on the plane
(the pairing `v ⬝ w`). -/
def toDual (v : ℝ × ℝ) : (ℝ × ℝ) →L[ℝ] ℝ :=
  v.1 • ContinuousLinearMap.fst ℝ ℝ ℝ + v.2 • ContinuousLinearMap.snd ℝ ℝ ℝ

/-- A `Mat2` viewed as a continuous linear map on the plane. -/
def matCLM (m : Mat2) : (ℝ × ℝ) →L[ℝ] (ℝ × ℝ) :=
  (toDual (m.a, m.b)).prod (toDual (m.c, m.d))

/-- The per-octave coordinate transform of `fbm`: `2.0 * ROTATION`. -/
def octaveT : Mat2 := (2 : ℝ) • rotBase

/-- The per-octave rotation-accumulator factor of `fbm`:
`2.0 * ROTATION_TRANSPOSE`. -/
def octaveTt : Mat2 := (2 : ℝ) • rotBaseT

@[simp] theorem toDual_apply (v w : ℝ × ℝ) : toDual v w = v.1 * w.1 + v.2 * w.2 := by
  simp [toDual, smul_eq_mul]

@[simp] theorem matCLM_apply (m : Mat2) (v : ℝ × ℝ) : matCLM m v = m.mulVec v := by
  simp [matCLM, Mat2.mulVec, ContinuousLinearMap.prod_apply]

theorem toDual_zero : toDual 0 = 0 := by
  apply ContinuousLinearMap.ext; intro w; simp

theorem toDual_add (v v' : ℝ × ℝ) : toDual (v + v') = toDual v + toDual v' := by
  apply ContinuousLinearMap.ext; intro w
  simp [Prod.fst_add, Prod.snd_add]; ring

theorem toDual_smul (c : ℝ) (v : ℝ × ℝ) : toDual (c • v) = c • toDual v := by
  apply ContinuousLinearMap.ext; intro w
  simp [Prod.smul_fst, Prod.smul_snd, smul_eq_mul]; ring

theorem toDual_sum {α : Type} (s : Finset α) (w : α → ℝ × ℝ) :
    toDual (∑ k ∈ s, w k) = ∑ k ∈ s, toDual (w k) := by
  classical
  induction s using Finset.induction_on with
  | empty => simpa using toDual_zero
  | insert h ih => rw [Finset.sum_insert h, Finset.sum_insert h, toDual_add, ih]

theorem toDual_comp_matCLM (g : ℝ × ℝ) (m : Mat2) :
    (toDual g).comp (matCLM m) = toDual (m.transpose.mulVec g) := by
  apply ContinuousLinearMap.ext; intro w
  simp [ContinuousLinearMap.comp_apply, Mat2.mulVec]; ring

theorem one_mulVec (v : ℝ × ℝ) : (1 : Mat2).mulVec v = v := by
  simp [Mat2.mulVec]

theorem smul_mulVec (k : ℝ) (m : Mat2) (v : ℝ × ℝ) :
    (k • m).mulVec v = k • m.mulVec v := by
  simp [Mat2.mulVec, Prod.smul_mk, smul_eq_mul]; constructor <;> ring

theorem hasFDerivAt_mulVec (m : Mat2) (p : ℝ × ℝ) :
    HasFDerivAt (fun v => m.mulVec v) (matCLM m) p := by
  apply (matCLM m).hasFDerivAt.congr_of_eventuallyEq
  exact Filter.Eventually.of_forall fun v => (matCLM_apply m v).symm

/-- The derivative of `smoothstep` is `6 t (1 - t)`. -/
theorem hasDerivAt_smoothstep (u : ℝ) :
    HasDerivAt smoothstep (6 * u * (1 - u)) u := by
  have h : HasDerivAt (fun x : ℝ => x * x * (3 - 2 * x))
      ((1 * u + u * 1) * (3 - 2 * u) + u * u * -(2 * 1)) u := by
    exact ((hasDerivAt_id' u).mul (hasDerivAt_id' u)).mul
      (((hasDerivAt_id' u).const_mul 2).const_sub 3)
  have : (1 * u + u * 1) * (3 - 2 * u) + u * u * -(2 * 1) = 6 * u * (1 - u) := by ring
  rw [this] at h
  exact h

/-- `noise` evaluates to the cell polynomial of the floor cell and its
gradient. -/
theorem noise_eq_floor_npoly (t : ℝ × ℝ) :
    noise t = (npoly ⌊t.1⌋ ⌊t.2⌋ t, npolyGrad ⌊t.1⌋ ⌊t.2⌋ t) := by
  simp only [noise, npoly, npolyGrad, hash, hashCell, floorv, fractGl, Prod.mk_add_mk,
    add_zero, Int.floor_add_one, Int.floor_intCast]

/-- Cross-boundary agreement in `x`: on the shared edge `t.1 = cx + 1`, the
cell polynomials of the two `x`-adjacent cells agree in value and gradient. -/
theorem npoly_shift_x (cx cy : ℤ) (t : ℝ × ℝ) (hx : t.1 = (cx : ℝ) + 1) :
    npoly (cx + 1) cy t = npoly cx cy t ∧
      npolyGrad (cx + 1) cy t = npolyGrad cx cy t := by
  constructor
  · simp only [npoly, smoothstep, hx]
    push_cast
    ring
  · simp only [npolyGrad, smoothstep, hx, Prod.mk.injEq]
    push_cast
    constructor <;> ring

/-- Cross-boundary agreement in `y`. -/
theorem npoly_shift_y (cx cy : ℤ) (t : ℝ × ℝ) (hy : t.2 = (cy : ℝ) + 1) :
    npoly cx (cy + 1) t = npoly cx cy t ∧
      npolyGrad cx (cy + 1) t = npolyGrad cx cy t := by
  constructor
  · simp only [npoly, smoothstep, hy]
    push_cast
    ring
  · simp only [npolyGrad, smoothstep, hy, Prod.mk.injEq]
    push_cast
    constructor <;> ring

/-- On any CLOSED lattice cell containing `t`, `noise` agrees with that cell's
polynomial and gradient (boundary points included: adjacent cells agree). -/
theorem noise_eq_npoly (cx cy : ℤ) (t : ℝ × ℝ)
    (hx1 : (cx : ℝ) ≤ t.1) (hx2 : t.1 ≤ (cx : ℝ) + 1)
    (hy1 : (cy : ℝ) ≤ t.2) (hy2 : t.2 ≤ (cy : ℝ) + 1) :
    (noise t).1 = npoly cx cy t ∧ (noise t).2 = npolyGrad cx cy t := by
  have base := noise_eq_floor_npoly t
  rcases lt_or_eq_of_le hx2 with hx | hx <;> rcases lt_or_eq_of_le hy2 with hy | hy
  · have hfx : ⌊t.1⌋ = cx := Int.floor_eq_iff.mpr ⟨hx1, hx⟩
    have hfy : ⌊t.2⌋ = cy := Int.floor_eq_iff.mpr ⟨hy1, hy⟩
    constructor <;> simp [base, hfx, hfy]
  · have hfx : ⌊t.1⌋ = cx := Int.floor_eq_iff.mpr ⟨hx1, hx⟩
    have hfy : ⌊t.2⌋ = cy + 1 := by
      rw [hy, Int.floor_add_one, Int.floor_intCast]
    have hs := npoly_shift_y cx cy t hy
    constructor
    · simp only [base, hfx, hfy]; exact hs.1
    · simp only [base, hfx, hfy]; exact hs.2
  · have hfx : ⌊t.1⌋ = cx + 1 := by
      rw [hx, Int.floor_add_one, Int.floor_intCast]
    have hfy : ⌊t.2⌋ = cy := Int.floor_eq_iff.mpr ⟨hy1, hy⟩
    have hs := npoly_shift_x cx cy t hx
    constructor
    · simp only [base, hfx, hfy]; exact hs.1
    · simp only [base, hfx, hfy]; exact hs.2
  · have hfx : ⌊t.1⌋ = cx + 1 := by
      rw [hx, Int.floor_add_one, Int.floor_intCast]
    have hfy : ⌊t.2⌋ = cy + 1 := by
      rw [hy, Int.floor_add_one, Int.floor_intCast]
    have hs1 := npoly_shift_x cx (cy + 1) t hx
    have hs2 := npoly_shift_y cx cy t hy
    constructor
    · simp only [base, hfx, hfy]; rw [hs1.1]; exact hs2.1
    · simp only [base, hfx, hfy]; rw [hs1.2]; exact hs2.2

/-- The cell polynomial has the cell gradient as derivative everywhere. -/
theorem hasFDerivAt_npoly (cx cy : ℤ) (t : ℝ × ℝ) :
    HasFDerivAt (npoly cx cy) (toDual (npolyGrad cx cy t)) t := by
  have hx : HasFDerivAt (fun v : ℝ × ℝ => smoothstep (v.1 - (cx : ℝ)))
      ((6 * (t.1 - (cx : ℝ)) * (1 - (t.1 - (cx : ℝ)))) • ContinuousLinearMap.fst ℝ ℝ ℝ) t := by
    have h1 : HasFDerivAt (fun v : ℝ × ℝ => v.1 - (cx : ℝ))
        (ContinuousLinearMap.fst ℝ ℝ ℝ) t := hasFDerivAt_fst.sub_const _
    simpa [Function.comp] using
      (hasDerivAt_smoothstep (t.1 - (cx : ℝ))).comp_hasFDerivAt t h1
  have hy : HasFDerivAt (fun v : ℝ × ℝ => smoothstep (v.2 - (cy : ℝ)))
      ((6 * (t.2 - (cy : ℝ)) * (1 - (t.2 - (cy : ℝ)))) • ContinuousLinearMap.snd ℝ ℝ ℝ) t := by
    have h1 : HasFDerivAt (fun v : ℝ × ℝ => v.2 - (cy : ℝ))
        (ContinuousLinearMap.snd ℝ ℝ ℝ) t := hasFDerivAt_snd.sub_const _
    simpa [Function.comp] using
      (hasDerivAt_smoothstep (t.2 - (cy : ℝ))).comp_hasFDerivAt t h1
  have hsum := (((hx.const_mul (hashCell (cx + 1) cy - hashCell cx cy)).const_add
        (hashCell cx cy)).add
      (hy.const_mul (hashCell cx (cy + 1) - hashCell cx cy))).add
      ((hx.const_mul (hashCell cx cy - hashCell (cx + 1) cy - hashCell cx (cy + 1)
          + hashCell (cx + 1) (cy + 1))).mul hy)
  unfold npoly
  apply hsum.congr_fderiv
  apply ContinuousLinearMap.ext
  intro v
  simp [npolyGrad, smoothstep, toDual_apply, smul_eq_mul]
  ring

/-- `noise` is differentiable within any set whose points stay, near `t`,
inside a fixed closed lattice cell containing `t`, with the derivative the
source's returned gradient. -/
theorem noise_hasFDerivWithinAt_cell (cx cy : ℤ) (t : ℝ × ℝ) (s : Set (ℝ × ℝ))
    (hx1 : (cx : ℝ) ≤ t.1) (hx2 : t.1 ≤ (cx : ℝ) + 1)
    (hy1 : (cy : ℝ) ≤ t.2) (hy2 : t.2 ≤ (cy : ℝ) + 1)
    (hs : ∀ᶠ v in nhdsWithin t s,
      (cx : ℝ) ≤ v.1 ∧ v.1 ≤ (cx : ℝ) + 1 ∧ (cy : ℝ) ≤ v.2 ∧ v.2 ≤ (cy : ℝ) + 1) :
    HasFDerivWithinAt (fun u => (noise u).1) (toDual ((noise t).2)) s t := by
  have ht := noise_eq_npoly cx cy t hx1 hx2 hy1 hy2
  rw [ht.2]
  exact ((hasFDerivAt_npoly cx cy t).hasFDerivWithinAt).congr_of_eventuallyEq
    (hs.mono fun v hv => (noise_eq_npoly cx cy v hv.1 hv.2.1 hv.2.2.1 hv.2.2.2).1) ht.1

theorem ceil_sub_one_lt (x : ℝ) : ((⌈x⌉ - 1 : ℤ) : ℝ) < x := by
  push_cast
  linarith [Int.ceil_lt_add_one x]

theorem le_ceil_sub_one_add_one (x : ℝ) : x ≤ ((⌈x⌉ - 1 : ℤ) : ℝ) + 1 := by
  push_cast
  linarith [Int.le_ceil x]

/-- Near any point, all coordinates stay strictly inside the union of the (up
to four) closed lattice cells surrounding the point. -/
theorem nhds_box (t : ℝ × ℝ) :
    ∀ᶠ v in nhds t, (((⌈t.1⌉ - 1 : ℤ) : ℝ) < v.1 ∧ v.1 < ((⌊t.1⌋ : ℤ) : ℝ) + 1) ∧
      (((⌈t.2⌉ - 1 : ℤ) : ℝ) < v.2 ∧ v.2 < ((⌊t.2⌋ : ℤ) : ℝ) + 1) := by
  have hopen : IsOpen {v : ℝ × ℝ |
      (((⌈t.1⌉ - 1 : ℤ) : ℝ) < v.1 ∧ v.1 < ((⌊t.1⌋ : ℤ) : ℝ) + 1) ∧
      (((⌈t.2⌉ - 1 : ℤ) : ℝ) < v.2 ∧ v.2 < ((⌊t.2⌋ : ℤ) : ℝ) + 1)} :=
    ((isOpen_lt continuous_const continuous_fst).inter
        (isOpen_lt continuous_fst continuous_const)).inter
      ((isOpen_lt continuous_const continuous_snd).inter
        (isOpen_lt continuous_snd continuous_const))
  have ht : t ∈ {v : ℝ × ℝ |
      (((⌈t.1⌉ - 1 : ℤ) : ℝ) < v.1 ∧ v.1 < ((⌊t.1⌋ : ℤ) : ℝ) + 1) ∧
      (((⌈t.2⌉ - 1 : ℤ) : ℝ) < v.2 ∧ v.2 < ((⌊t.2⌋ : ℤ) : ℝ) + 1)} :=
    ⟨⟨ceil_sub_one_lt t.1, Int.lt_floor_add_one t.1⟩,
     ⟨ceil_sub_one_lt t.2, Int.lt_floor_add_one t.2⟩⟩
  exact hopen.mem_nhds ht

theorem quad_ev_ll (t : ℝ × ℝ) :
    ∀ᶠ v in nhdsWithin t {v : ℝ × ℝ | v.1 ≤ t.1 ∧ v.2 ≤ t.2},
      ((⌈t.1⌉ - 1 : ℤ) : ℝ) ≤ v.1 ∧ v.1 ≤ ((⌈t.1⌉ - 1 : ℤ) : ℝ) + 1 ∧
      ((⌈t.2⌉ - 1 : ℤ) : ℝ) ≤ v.2 ∧ v.2 ≤ ((⌈t.2⌉ - 1 : ℤ) : ℝ) + 1 := by
  apply Filter.Eventually.mono
    (((nhds_box t).filter_mono nhdsWithin_le_nhds).and eventually_mem_nhdsWithin)
  rintro v ⟨⟨⟨h1, _⟩, ⟨h3, _⟩⟩, hv1, hv2⟩
  exact ⟨le_of_lt h1, le_trans hv1 (le_ceil_sub_one_add_one t.1),
    le_of_lt h3, le_trans hv2 (le_ceil_sub_one_add_one t.2)⟩

theorem quad_ev_lr (t : ℝ × ℝ) :
    ∀ᶠ v in nhdsWithin t {v : ℝ × ℝ | v.1 ≤ t.1 ∧ t.2 ≤ v.2},
      ((⌈t.1⌉ - 1 : ℤ) : ℝ) ≤ v.1 ∧ v.1 ≤ ((⌈t.1⌉ - 1 : ℤ) : ℝ) + 1 ∧
      ((⌊t.2⌋ : ℤ) : ℝ) ≤ v.2 ∧ v.2 ≤ ((⌊t.2⌋ : ℤ) : ℝ) + 1 := by
  apply Filter.Eventually.mono
    (((nhds_box t).filter_mono nhdsWithin_le_nhds).and eventually_mem_nhdsWithin)
  rintro v ⟨⟨⟨h1, _⟩, ⟨_, h4⟩⟩, hv1, hv2⟩
  exact ⟨le_of_lt h1, le_trans hv1 (le_ceil_sub_one_add_one t.1),
    le_trans (Int.floor_le t.2) hv2, le_of_lt h4⟩

theorem quad_ev_rl (t : ℝ × ℝ) :
    ∀ᶠ v in nhdsWithin t {v : ℝ × ℝ | t.1 ≤ v.1 ∧ v.2 ≤ t.2},
      ((⌊t.1⌋ : ℤ) : ℝ) ≤ v.1 ∧ v.1 ≤ ((⌊t.1⌋ : ℤ) : ℝ) + 1 ∧
      ((⌈t.2⌉ - 1 : ℤ) : ℝ) ≤ v.2 ∧ v.2 ≤ ((⌈t.2⌉ - 1 : ℤ) : ℝ) + 1 := by
  apply Filter.Eventually.mono
    (((nhds_box t).filter_mono nhdsWithin_le_nhds).and eventually_mem_nhdsWithin)
  rintro v ⟨⟨⟨_, h2⟩, ⟨h3, _⟩⟩, hv1, hv2⟩
  exact ⟨le_trans (Int.floor_le t.1) hv1, le_of_lt h2,
    le_of_lt h3, le_trans hv2 (le_ceil_sub_one_add_one t.2)⟩

theorem quad_ev_rr (t : ℝ × ℝ) :
    ∀ᶠ v in nhdsWithin t {v : ℝ × ℝ | t.1 ≤ v.1 ∧ t.2 ≤ v.2},
      ((⌊t.1⌋ : ℤ) : ℝ) ≤ v.1 ∧ v.1 ≤ ((⌊t.1⌋ : ℤ) : ℝ) + 1 ∧
      ((⌊t.2⌋ : ℤ) : ℝ) ≤ v.2 ∧ v.2 ≤ ((⌊t.2⌋ : ℤ) : ℝ) + 1 := by
  apply Filter.Eventually.mono
    (((nhds_box t).filter_mono nhdsWithin_le_nhds).and eventually_mem_nhdsWithin)
  rintro v ⟨⟨⟨_, h2⟩, ⟨_, h4⟩⟩, hv1, hv2⟩
  exact ⟨le_trans (Int.floor_le t.1) hv1, le_of_lt h2,
    le_trans (Int.floor_le t.2) hv2, le_of_lt h4⟩

theorem quad_union_univ (t : ℝ × ℝ) :
    ({v : ℝ × ℝ | v.1 ≤ t.1 ∧ v.2 ≤ t.2} ∪ {v : ℝ × ℝ | v.1 ≤ t.1 ∧ t.2 ≤ v.2}) ∪
      ({v : ℝ × ℝ | t.1 ≤ v.1 ∧ v.2 ≤ t.2} ∪ {v : ℝ × ℝ | t.1 ≤ v.1 ∧ t.2 ≤ v.2}) =
      Set.univ := by
  ext v
  simp only [Set.mem_union, Set.mem_setOf_eq, Set.mem_univ, iff_true]
  rcases le_total v.1 t.1 with h | h <;> rcases le_total v.2 t.2 with h2 | h2 <;> tauto

/-- `noise` is differentiable at EVERY point of the plane, cell boundaries
included, and the derivative is the gradient the source returns. -/
theorem noise_hasFDerivAt (t : ℝ × ℝ) :
    HasFDerivAt (fun u => (noise u).1) (toDual ((noise t).2)) t := by
  have q1 := noise_hasFDerivWithinAt_cell (⌈t.1⌉ - 1) (⌈t.2⌉ - 1) t
    {v : ℝ × ℝ | v.1 ≤ t.1 ∧ v.2 ≤ t.2}
    (le_of_lt (ceil_sub_one_lt t.1)) (le_ceil_sub_one_add_one t.1)
    (le_of_lt (ceil_sub_one_lt t.2)) (le_ceil_sub_one_add_one t.2) (quad_ev_ll t)
  have q2 := noise_hasFDerivWithinAt_cell (⌈t.1⌉ - 1) ⌊t.2⌋ t
    {v : ℝ × ℝ | v.1 ≤ t.1 ∧ t.2 ≤ v.2}
    (le_of_lt (ceil_sub_one_lt t.1)) (le_ceil_sub_one_add_one t.1)
    (Int.floor_le t.2) (le_of_lt (Int.lt_floor_add_one t.2)) (quad_ev_lr t)
  have q3 := noise_hasFDerivWithinAt_cell ⌊t.1⌋ (⌈t.2⌉ - 1) t
    {v : ℝ × ℝ | t.1 ≤ v.1 ∧ v.2 ≤ t.2}
    (Int.floor_le t.1) (le_of_lt (Int.lt_floor_add_one t.1))
    (le_of_lt (ceil_sub_one_lt t.2)) (le_ceil_sub_one_add_one t.2) (quad_ev_rl t)
  have q4 := noise_hasFDerivWithinAt_cell ⌊t.1⌋ ⌊t.2⌋ t
    {v : ℝ × ℝ | t.1 ≤ v.1 ∧ t.2 ≤ v.2}
    (Int.floor_le t.1) (le_of_lt (Int.lt_floor_add_one t.1))
    (Int.floor_le t.2) (le_of_lt (Int.lt_floor_add_one t.2)) (quad_ev_rr t)
  have hu := (q1.union q2).union (q3.union q4)
  rw [quad_union_univ t] at hu
  exact hasFDerivWithinAt_univ.mp hu

theorem npolyGrad_continuous (cx cy : ℤ) : Continuous (npolyGrad cx cy) := by
  unfold npolyGrad smoothstep
  fun_prop

theorem noise_grad_continuousWithinAt_cell (cx cy : ℤ) (t : ℝ × ℝ) (s : Set (ℝ × ℝ))
    (hx1 : (cx : ℝ) ≤ t.1) (hx2 : t.1 ≤ (cx : ℝ) + 1)
    (hy1 : (cy : ℝ) ≤ t.2) (hy2 : t.2 ≤ (cy : ℝ) + 1)
    (hs : ∀ᶠ v in nhdsWithin t s,
      (cx : ℝ) ≤ v.1 ∧ v.1 ≤ (cx : ℝ) + 1 ∧ (cy : ℝ) ≤ v.2 ∧ v.2 ≤ (cy : ℝ) + 1) :
    ContinuousWithinAt (fun u => (noise u).2) s t := by
  have ht := noise_eq_npoly cx cy t hx1 hx2 hy1 hy2
  exact ContinuousWithinAt.congr_of_eventuallyEq
    ((npolyGrad_continuous cx cy).continuousWithinAt)
    (hs.mono fun v hv => (noise_eq_npoly cx cy v hv.1 hv.2.1 hv.2.2.1 hv.2.2.2).2) ht.2

/-- The gradient returned by `noise` is continuous on the whole plane. -/
theorem noise_grad_continuous : Continuous (fun u => (noise u).2) := by
  rw [continuous_iff_continuousAt]
  intro t
  rw [← continuousWithinAt_univ]
  have q1 := noise_grad_continuousWithinAt_cell (⌈t.1⌉ - 1) (⌈t.2⌉ - 1) t
    {v : ℝ × ℝ | v.1 ≤ t.1 ∧ v.2 ≤ t.2}
    (le_of_lt (ceil_sub_one_lt t.1)) (le_ceil_sub_one_add_one t.1)
    (le_of_lt (ceil_sub_one_lt t.2)) (le_ceil_sub_one_add_one t.2) (quad_ev_ll t)
  have q2 := noise_grad_continuousWithinAt_cell (⌈t.1⌉ - 1) ⌊t.2⌋ t
    {v : ℝ × ℝ | v.1 ≤ t.1 ∧ t.2 ≤ v.2}
    (le_of_lt (ceil_sub_one_lt t.1)) (le_ceil_sub_one_add_one t.1)
    (Int.floor_le t.2) (le_of_lt (Int.lt_floor_add_one t.2)) (quad_ev_lr t)
  have q3 := noise_grad_continuousWithinAt_cell ⌊t.1⌋ (⌈t.2⌉ - 1) t
    {v : ℝ × ℝ | t.1 ≤ v.1 ∧ v.2 ≤ t.2}
    (Int.floor_le t.1) (le_of_lt (Int.lt_floor_add_one t.1))
    (le_of_lt (ceil_sub_one_lt t.2)) (le_ceil_sub_one_add_one t.2) (quad_ev_rl t)
  have q4 := noise_grad_continuousWithinAt_cell ⌊t.1⌋ ⌊t.2⌋ t
    {v : ℝ × ℝ | t.1 ≤ v.1 ∧ t.2 ≤ v.2}
    (Int.floor_le t.1) (le_of_lt (Int.lt_floor_add_one t.1))
    (Int.floor_le t.2) (le_of_lt (Int.lt_floor_add_one t.2)) (quad_ev_rr t)
  have hu := (q1.union q2).union (q3.union q4)
  rw [quad_union_univ t] at hu
  exact hu

theorem fbmLoop_succ_right (n : ℕ) (s : FbmState) :
    fbmLoop (n + 1) s = fbmStep (fbmLoop n s) := by
  induction n generalizing s with
  | zero => rfl
  | succ m ih =>
    show fbmLoop (m + 1) (fbmStep s) = fbmStep (fbmLoop (m + 1) s)
    rw [ih (fbmStep s)]
    rfl

theorem smul_transpose (k : ℝ) (m : Mat2) :
    (k • m).transpose = k • m.transpose := by
  ext <;> simp

theorem octaveTt_eq_transpose : octaveTt = octaveT.transpose := by
  rw [octaveT, octaveTt, smul_transpose]
  ext <;> simp [rotBase, rotBaseT]

theorem octaveTt_pow (k : ℕ) : octaveTt ^ k = (octaveT ^ k).transpose := by
  rw [octaveTt_eq_transpose, Mat2.transpose_pow]

/-- Closed form of the `fbm` loop state after `n` octaves: the point has been
transformed by `(2 R)^n`, the amplitude is `2⁻ⁿ`, the rotation accumulator is
`(2 Rᵀ)^n`, and value and derivative are the octave sums. -/
theorem fbmLoop_closed (p0 : ℝ × ℝ) (n : ℕ) :
    fbmLoop n (fbmInit p0) =
      { p := (octaveT ^ n).mulVec p0
        scale := (2 : ℝ)⁻¹ ^ n
        rot := octaveTt ^ n
        value := ∑ k ∈ Finset.range n, (2 : ℝ)⁻¹ ^ k * (noise ((octaveT ^ k).mulVec p0)).1
        deriv := ∑ k ∈ Finset.range n, (2 : ℝ)⁻¹ ^ k •
          (octaveTt ^ k).mulVec (noise ((octaveT ^ k).mulVec p0)).2 } := by
  induction n with
  | zero =>
    simp only [fbmLoop, fbmInit, pow_zero, Finset.range_zero, Finset.sum_empty]
    ext <;> simp [one_mulVec]
  | succ m ih =>
    rw [fbmLoop_succ_right, ih]
    simp only [fbmStep]
    ext
    case p.fst =>
      simp only [pow_succ', ← Mat2.mulVec_mulVec, octaveT, smul_mulVec]
    case p.snd =>
      simp only [pow_succ', ← Mat2.mulVec_mulVec, octaveT, smul_mulVec]
    case scale =>
      show (2 : ℝ)⁻¹ ^ m / 2 = (2 : ℝ)⁻¹ ^ (m + 1)
      rw [pow_succ]
      ring
    case rot.a =>
      show (((2 : ℝ) • rotBaseT) * octaveTt ^ m).a = (octaveTt ^ (m + 1)).a
      rw [pow_succ', octaveTt]
    case rot.b =>
      show (((2 : ℝ) • rotBaseT) * octaveTt ^ m).b = (octaveTt ^ (m + 1)).b
      rw [pow_succ', octaveTt]
    case rot.c =>
      show (((2 : ℝ) • rotBaseT) * octaveTt ^ m).c = (octaveTt ^ (m + 1)).c
      rw [pow_succ', octaveTt]
    case rot.d =>
      show (((2 : ℝ) • rotBaseT) * octaveTt ^ m).d = (octaveTt ^ (m + 1)).d
      rw [pow_succ', octaveTt]
    case value =>
      rw [Finset.sum_range_succ]
    case deriv.fst =>
      simp only [Finset.sum_range_succ, Prod.fst_add, Prod.smul_fst, smul_eq_mul,
        Mat2.mulVec_fst]
    case deriv.snd =>
      simp only [Finset.sum_range_succ, Prod.snd_add, Prod.smul_snd, smul_eq_mul,
        Mat2.mulVec_snd]

/-- The value returned by `fbm` as a sum over octaves. -/
theorem fbm_value_closed (p0 : ℝ × ℝ) :
    (fbm p0).1 =
      ∑ k ∈ Finset.range 11, (2 : ℝ)⁻¹ ^ k * (noise ((octaveT ^ k).mulVec p0)).1 := by
  rw [fbm, fbmLoop_closed]

/-- The gradient returned by `fbm` as a sum over octaves, each local noise
gradient mapped back by the transpose of the composed coordinate transform. -/
theorem fbm_deriv_closed (p0 : ℝ × ℝ) :
    (fbm p0).2 =
      ∑ k ∈ Finset.range 11, (2 : ℝ)⁻¹ ^ k •
        ((octaveT ^ k).transpose.mulVec (noise ((octaveT ^ k).mulVec p0)).2) := by
  rw [fbm, fbmLoop_closed]
  simp only [octaveTt_pow]

/-- The gradient returned by `fbm` is the exact derivative of the value
returned by `fbm`, at every point of the plane. -/
theorem fbm_hasFDerivAt (p : ℝ × ℝ) :
    HasFDerivAt (fun q => (fbm q).1) (toDual ((fbm p).2)) p := by
  have main : HasFDerivAt
      (fun q => ∑ k ∈ Finset.range 11, (2 : ℝ)⁻¹ ^ k * (noise ((octaveT ^ k).mulVec q)).1)
      (∑ k ∈ Finset.range 11, (2 : ℝ)⁻¹ ^ k •
        ((toDual ((noise ((octaveT ^ k).mulVec p)).2)).comp (matCLM (octaveT ^ k)))) p := by
    apply HasFDerivAt.sum
    intro k _
    have hcomp := (noise_hasFDerivAt ((octaveT ^ k).mulVec p)).comp p
      (hasFDerivAt_mulVec (octaveT ^ k) p)
    exact (hcomp.congr_of_eventuallyEq
      (Filter.Eventually.of_forall fun v => rfl)).const_mul _
  have hfn : (fun q => (fbm q).1) =
      fun q => ∑ k ∈ Finset.range 11, (2 : ℝ)⁻¹ ^ k * (noise ((octaveT ^ k).mulVec q)).1 :=
    funext fun q => fbm_value_closed q
  rw [hfn, fbm_deriv_closed]
  apply main.congr_fderiv
  rw [toDual_sum]
  apply Finset.sum_congr rfl
  intro k _
  rw [toDual_smul, toDual_comp_matCLM]

theorem length_flatMap_const {α : Type} (c : ℕ) (g : ℕ → List α)
    (hg : ∀ i, (g i).length = c) (n : ℕ) :
    ((List.range n).flatMap g).length = n * c := by
  induction n with
  | zero => simp
  | succ m ih =>
    rw [List.range_succ, List.flatMap_append, List.length_append, ih]
    simp [hg, Nat.succ_mul]

theorem drop_append_of_le {α : Type} (l₁ l₂ : List α) (n : ℕ) (h : n ≤ l₁.length) :
    (l₁ ++ l₂).drop n = l₁.drop n ++ l₂ := by
  induction l₁ generalizing n with
  | nil =>
    simp only [List.length_nil, Nat.le_zero] at h
    subst h
    simp
  | cons a t ih =>
    cases n with
    | zero => simp
    | succ m =>
      simp only [List.cons_append, List.drop_succ_cons]
      exact ih m (by simpa using h)

theorem drop_flatMap_range {α : Type} (c : ℕ) (g : ℕ → List α)
    (hg : ∀ i, (g i).length = c) (n i : ℕ) (hi : i < n) :
    ((List.range n).flatMap g).drop (i * c) =
      g i ++ (List.range' (i + 1) (n - (i + 1))).flatMap g := by
  have hsplit : List.range n = List.range i ++ List.range' i (n - i) := by
    simp only [List.range_eq_range']
    have h2 := List.range'_append 0 i (n - i) 1
    simp only [Nat.one_mul, Nat.zero_add] at h2
    rw [h2]
    congr 1
    omega
  rw [hsplit, List.flatMap_append,
    List.drop_left' (length_flatMap_const c g hg i)]
  have hn : n - i = (n - (i + 1)) + 1 := by omega
  rw [hn, List.range'_succ]
  simp [List.flatMap_cons]

theorem drop_take_flatMap_range {α : Type} (c : ℕ) (g : ℕ → List α)
    (hg : ∀ i, (g i).length = c) (n i : ℕ) (hi : i < n) :
    (((List.range n).flatMap g).drop (i * c)).take c = g i := by
  rw [drop_flatMap_range c g hg n i hi]
  exact List.take_left' (hg i)

/-- Indexing into a double loop that appends `c` elements per inner
iteration: the chunk at `(i * n2 + j) * c` is the body's output for `(i, j)`. -/
theorem drop_take_flatMap2 {α : Type} (c : ℕ) (g : ℕ → ℕ → List α)
    (hg : ∀ i j, (g i j).length = c) (n1 n2 i j : ℕ) (h1 : i < n1) (h2 : j < n2) :
    ((((List.range n1).flatMap fun r => (List.range n2).flatMap fun s => g r s).drop
        ((i * n2 + j) * c)).take c) = g i j := by
  have houter : ∀ r, ((List.range n2).flatMap fun s => g r s).length = n2 * c :=
    fun r => length_flatMap_const c (g r) (fun j2 => hg r j2) n2
  have harith : (i * n2 + j) * c = i * (n2 * c) + j * c := by ring
  rw [harith, ← List.drop_drop,
    drop_flatMap_range (n2 * c) _ houter n1 i h1,
    drop_append_of_le _ _ (j * c)
      (by rw [length_flatMap_const c (g i) (fun j2 => hg i j2) n2]
          exact Nat.mul_le_mul_right c (Nat.le_of_lt h2)),
    drop_flatMap_range c (g i) (fun j2 => hg i j2) n2 j h2,
    List.append_assoc]
  exact List.take_left' (hg i j)

theorem getElem?_of_drop_take {α : Type} (l : List α) (k : ℕ) (v : α)
    (hk : k < l.length) (h : (l.drop k).take 1 = [v]) : l[k]? = some v := by
  rw [List.getElem?_eq_getElem hk]
  rw [List.drop_eq_getElem_cons hk] at h
  simp only [List.take_succ_cons, List.take_zero] at h
  simpa using h

theorem map_eq_flatMap_singleton {α : Type} (f : ℕ → α) (l : List ℕ) :
    l.map f = l.flatMap fun x => [f x] := by
  induction l with
  | nil => rfl
  | cons a t ih => simp [ih]

theorem meshPositions_length (res : ℕ) :
    (meshPositions res).length = (res + 1) ^ 2 := by
  rw [meshPositions,
    length_flatMap_const (res + 1) _ (fun i => by simp) (res + 1), pow_two]

theorem meshNormals_length (res : ℕ) :
    (meshNormals res).length = (res + 1) ^ 2 := by
  rw [meshNormals,
    length_flatMap_const (res + 1) _ (fun i => by simp) (res + 1), pow_two]

theorem meshIndices_length (res : ℕ) :
    (meshIndices res).length = res ^ 2 * 6 := by
  rw [meshIndices,
    length_flatMap_const (res * 6)
      (fun row => (List.range res).flatMap fun col => quadIndices res row col)
      (fun i => length_flatMap_const 6 (fun col => quadIndices res i col)
        (fun j => rfl) res) res]
  ring

theorem quad_index_bound (res row col i : ℕ) (hr : row < res) (hc : col < res)
    (hi : i ∈ quadIndices res row col) : i < (res + 1) ^ 2 := by
  simp only [quadIndices, List.mem_cons, List.not_mem_nil, or_false] at hi
  have hb : (row + 1) * (res + 1) + col + 1 < (res + 1) ^ 2 := by nlinarith
  rcases hi with h | h | h | h | h | h <;> subst h <;> nlinarith

theorem meshIndices_mem_bound (res : ℕ) :
    ∀ i ∈ meshIndices res, i < (res + 1) ^ 2 := by
  intro i hi
  rw [meshIndices] at hi
  simp only [List.mem_flatMap, List.mem_range] at hi
  obtain ⟨row, hrow, col, hcol, hq⟩ := hi
  exact quad_index_bound res row col i hrow hcol hq

theorem meshIndices_quad (res row col : ℕ) (hrow : row < res) (hcol : col < res) :
    ((meshIndices res).drop (6 * (row * res + col))).take 6 =
      quadIndices res row col := by
  have h := drop_take_flatMap2 6 (quadIndices res) (fun i j => rfl)
    res res row col hrow hcol
  rw [meshIndices]
  rwa [Nat.mul_comm (row * res + col) 6] at h

theorem meshPositions_getElem (res row col : ℕ) (hrow : row ≤ res) (hcol : col ≤ res) :
    (meshPositions res)[row * (res + 1) + col]? = some (vertexPos res row col) := by
  apply getElem?_of_drop_take
  · rw [meshPositions_length]
    nlinarith
  · have h := drop_take_flatMap2 1 (fun r s => [vertexPos res r s]) (fun i j => rfl)
      (res + 1) (res + 1) row col (by omega) (by omega)
    rw [Nat.mul_one] at h
    rw [meshPositions]
    simp only [map_eq_flatMap_singleton]
    exact h

theorem meshNormals_getElem (res row col : ℕ) (hrow : row ≤ res) (hcol : col ≤ res) :
    (meshNormals res)[row * (res + 1) + col]? = some (vertexNormal res row col) := by
  apply getElem?_of_drop_take
  · rw [meshNormals_length]
    nlinarith
  · have h := drop_take_flatMap2 1 (fun r s => [vertexNormal res r s]) (fun i j => rfl)
      (res + 1) (res + 1) row col (by omega) (by omega)
    rw [Nat.mul_one] at h
    rw [meshNormals]
    simp only [map_eq_flatMap_singleton]
    exact h

theorem hashU32_lt_m32 (ix iy : ℤ) : hashU32 ix iy < m32 := by
  simp only [hashU32]
  exact Nat.mod_lt _ (by norm_num [m32])

theorem hashCell_nonneg (i j : ℤ) : 0 ≤ hashCell i j := by
  rw [hashCell]
  positivity

theorem hashCell_lt_one (i j : ℤ) : hashCell i j < 1 := by
  rw [hashCell, div_lt_one (by norm_num [m32])]
  exact_mod_cast hashU32_lt_m32 (i32sat i) (i32sat j)

theorem one_le_norm3Sq_pre (x z : ℝ) : 1 ≤ norm3Sq (samplePreNormal x z) := by
  simp only [norm3Sq, samplePreNormal]
  nlinarith [sq_nonneg ((fbm (x / 800, z / 800)).2.1 * 300 / 800),
    sq_nonneg ((fbm (x / 800, z / 800)).2.2 * 300 / 800)]

theorem one_le_sqrt_norm3Sq_pre (x z : ℝ) :
    1 ≤ Real.sqrt (norm3Sq (samplePreNormal x z)) := by
  rw [show (1 : ℝ) = Real.sqrt 1 from Real.sqrt_one.symm]
  exact Real.sqrt_le_sqrt (by simpa using one_le_norm3Sq_pre x z)

theorem norm3Sq_normalize3 (v : ℝ × ℝ × ℝ) (hv : 0 < norm3Sq v) :
    norm3Sq (normalize3 v) = 1 := by
  have hs : Real.sqrt (norm3Sq v) ^ 2 = norm3Sq v := Real.sq_sqrt (le_of_lt hv)
  have hne : norm3Sq v ≠ 0 := ne_of_gt hv
  show (v.1 / Real.sqrt (norm3Sq v)) ^ 2 + (v.2.1 / Real.sqrt (norm3Sq v)) ^ 2
      + (v.2.2 / Real.sqrt (norm3Sq v)) ^ 2 = 1
  rw [div_pow, div_pow, div_pow, hs, div_add_div_same, div_add_div_same]
  exact div_self hne

theorem sample_normal_y_pos (x z : ℝ) : 0 < (sample x z).2.2.1 := by
  show 0 < 1 / Real.sqrt (norm3Sq (samplePreNormal x z))
  exact div_pos one_pos (lt_of_lt_of_le one_pos (one_le_sqrt_norm3Sq_pre x z))

/-- C1: for every input point, the gradient returned by `fbm` is the exact
analytic derivative of the value returned by `fbm`.  The loop runs exactly
11 octaves with lacunarity 2.0 and amplitude starting at 1.0 and halving
each octave: the value is the octave sum of `amplitude * noise((2R)^k p)`,
the derivative is the octave sum of
`amplitude * rotationAccumulator * noiseGradient`, and the rotation
accumulator at octave `k` equals the transpose of the composed coordinate
transform `(2R)^k`, which is what makes the accumulated derivative the
chain-rule derivative of the value. -/
theorem claim_fbm_gradient_exact (p : ℝ × ℝ) :
    HasFDerivAt (fun q => (fbm q).1) (toDual ((fbm p).2)) p ∧
      (fbm p).1 = ∑ k ∈ Finset.range 11,
        (2 : ℝ)⁻¹ ^ k * (noise ((octaveT ^ k).mulVec p)).1 ∧
      (fbm p).2 = ∑ k ∈ Finset.range 11, (2 : ℝ)⁻¹ ^ k •
        ((octaveT ^ k).transpose.mulVec (noise ((octaveT ^ k).mulVec p)).2) ∧
      ∀ k : ℕ, (fbmLoop k (fbmInit p)).rot = (octaveT ^ k).transpose ∧
        (fbmLoop k (fbmInit p)).scale = (2 : ℝ)⁻¹ ^ k :=
  ⟨fbm_hasFDerivAt p, fbm_value_closed p, fbm_deriv_closed p, fun k => by
    rw [fbmLoop_closed p k, ← octaveTt_pow]
    exact ⟨rfl, rfl⟩⟩

/-- C2: the value returned by `noise` is C1 across lattice-cell boundaries
and the gradient returned by `noise` is its exact analytic derivative: the
value is differentiable at every point of the plane with derivative the
returned gradient, the returned gradient is continuous, and the smoothstep
factor used in the gradient is the true derivative `6t(1-t)` of
`smoothstep`. -/
theorem claim_noise_C1_gradient_exact :
    (∀ t : ℝ × ℝ, HasFDerivAt (fun u => (noise u).1) (toDual ((noise t).2)) t) ∧
      Continuous (fun u => (noise u).2) ∧
      ∀ u : ℝ, HasDerivAt smoothstep (6 * u * (1 - u)) u :=
  ⟨noise_hasFDerivAt, noise_grad_continuous, hasDerivAt_smoothstep⟩

/-- C3: the grid vertex stored at buffer index `row * (resolution+1) + col`
has height `fbm((x, z)/scale).value * amplitude` at the world coordinates
`x = row - resolution/2`, `z = col - resolution/2`; its stored normal is the
normalization of `(-g.x * amplitude/scale, 1, -g.y * amplitude/scale)` for
the gradient `g` of the same `fbm` call; and that stored normal has unit
length exactly (`amplitude = 300`, `scale = 800` as in the source). -/
theorem claim_mesh_vertex_height_normal (res row col : ℕ) (x z : ℝ)
    (hrow : row ≤ res) (hcol : col ≤ res)
    (hx : x = (row : ℝ) - (res : ℝ) / 2) (hz : z = (col : ℝ) - (res : ℝ) / 2) :
    (meshPositions res)[row * (res + 1) + col]? =
        some (x, (fbm (x / 800, z / 800)).1 * 300, z) ∧
      (meshNormals res)[row * (res + 1) + col]? =
        some (normalize3 (-((fbm (x / 800, z / 800)).2.1 * 300 / 800), 1,
          -((fbm (x / 800, z / 800)).2.2 * 300 / 800))) ∧
      norm3Sq (normalize3 (-((fbm (x / 800, z / 800)).2.1 * 300 / 800), 1,
          -((fbm (x / 800, z / 800)).2.2 * 300 / 800))) = 1 := by
  subst hx
  subst hz
  refine ⟨?_, ?_, ?_⟩
  · exact meshPositions_getElem res row col hrow hcol
  · exact meshNormals_getElem res row col hrow hcol
  · exact norm3Sq_normalize3 _
      (lt_of_lt_of_le one_pos (one_le_norm3Sq_pre _ _))

theorem claim_mesh_vertex_height_normal_witness :
    ((0 : ℕ) ≤ 0) ∧ ((0 : ℝ) = ((0 : ℕ) : ℝ) - ((0 : ℕ) : ℝ) / 2) ∧
      ((meshPositions 0)[0 * (0 + 1) + 0]? =
          some ((0 : ℝ), (fbm ((0 : ℝ) / 800, (0 : ℝ) / 800)).1 * 300, (0 : ℝ)) ∧
        (meshNormals 0)[0 * (0 + 1) + 0]? =
          some (normalize3 (-((fbm ((0 : ℝ) / 800, (0 : ℝ) / 800)).2.1 * 300 / 800), 1,
            -((fbm ((0 : ℝ) / 800, (0 : ℝ) / 800)).2.2 * 300 / 800))) ∧
        norm3Sq (normalize3 (-((fbm ((0 : ℝ) / 800, (0 : ℝ) / 800)).2.1 * 300 / 800), 1,
            -((fbm ((0 : ℝ) / 800, (0 : ℝ) / 800)).2.2 * 300 / 800))) = 1) :=
  ⟨by decide, by norm_num,
   claim_mesh_vertex_height_normal 0 0 0 0 0 (by decide) (by decide)
     (by norm_num) (by norm_num)⟩

/-- C4: for every resolution, the mesh builder outputs exactly
`(resolution+1)^2` positions, `(resolution+1)^2` normals (index-aligned),
and `resolution^2 * 6` triangle indices, every emitted index is strictly
below the position count, and resolution 0 degenerates to exactly one
position, one normal and no indices. -/
theorem claim_mesh_buffer_shape (res : ℕ) :
    (meshPositions res).length = (res + 1) ^ 2 ∧
      (meshNormals res).length = (res + 1) ^ 2 ∧
      (meshIndices res).length = res ^ 2 * 6 ∧
      (∀ i ∈ meshIndices res, i < (meshPositions res).length) ∧
      (meshPositions 0).length = 1 ∧ (meshNormals 0).length = 1 ∧
      meshIndices 0 = [] :=
  ⟨meshPositions_length res, meshNormals_length res, meshIndices_length res,
   fun i hi => by
     rw [meshPositions_length]
     exact meshIndices_mem_bound res i hi,
   by rw [meshPositions_length]; norm_num, by rw [meshNormals_length]; norm_num, rfl⟩

theorem claim_mesh_buffer_shape_witness :
    0 ∈ meshIndices 1 ∧ 0 < (meshPositions 1).length :=
  ⟨by decide, (claim_mesh_buffer_shape 1).2.2.2.1 0 (by decide)⟩

/-- C5: for every quad `(row, col)` with `row, col < resolution`, the index
buffer contains at offset `6 * (row * resolution + col)` the two triangles
`(top_left, top_right, bottom_left)` then
`(top_right, bottom_right, bottom_left)` with
`top_left = row*(resolution+1)+col`, `top_right = top_left+1`,
`bottom_left = (row+1)*(resolution+1)+col`, `bottom_right = bottom_left+1`;
for resolution 1 the six indices are exactly `0,1,2` then `1,3,2`. -/
theorem claim_quad_triangles (res row col : ℕ) (hrow : row < res) (hcol : col < res) :
    ((meshIndices res).drop (6 * (row * res + col))).take 6 =
        [row * (res + 1) + col, row * (res + 1) + col + 1,
         (row + 1) * (res + 1) + col,
         row * (res + 1) + col + 1, (row + 1) * (res + 1) + col + 1,
         (row + 1) * (res + 1) + col] ∧
      meshIndices 1 = [0, 1, 2, 1, 3, 2] :=
  ⟨meshIndices_quad res row col hrow hcol, by decide⟩

theorem claim_quad_triangles_witness :
    ((0 : ℕ) < 1) ∧
      (((meshIndices 1).drop (6 * (0 * 1 + 0))).take 6 =
          [0 * (1 + 1) + 0, 0 * (1 + 1) + 0 + 1, (0 + 1) * (1 + 1) + 0,
           0 * (1 + 1) + 0 + 1, (0 + 1) * (1 + 1) + 0 + 1,
           (0 + 1) * (1 + 1) + 0] ∧
        meshIndices 1 = [0, 1, 2, 1, 3, 2]) :=
  ⟨by decide, claim_quad_triangles 1 0 0 (by decide) (by decide)⟩

/-- C6: `hash` maps every pair of lattice coordinates into `[0, 1)`: the
unsigned 32-bit avalanche result divided by 2^32 is nonnegative and strictly
below 1, both at integer lattice corners and for every real input point. -/
theorem claim_hash_range (i j : ℤ) (p : ℝ × ℝ) :
    (0 ≤ hashCell i j ∧ hashCell i j < 1) ∧ (0 ≤ hash p ∧ hash p < 1) :=
  ⟨⟨hashCell_nonneg i j, hashCell_lt_one i j⟩,
   ⟨hashCell_nonneg ⌊p.1⌋ ⌊p.2⌋, hashCell_lt_one ⌊p.1⌋ ⌊p.2⌋⟩⟩

theorem claim_hash_range_witness :
    (0 ≤ hashCell (-5) 7 ∧ hashCell (-5) 7 < 1) ∧
      (0 ≤ hash ((-2.5 : ℝ), (3.75 : ℝ)) ∧ hash ((-2.5 : ℝ), (3.75 : ℝ)) < 1) :=
  claim_hash_range (-5) 7 ((-2.5 : ℝ), (3.75 : ℝ))

/-- C7: the component-wise fractional part used by `noise` (`fract_gl`,
point minus the component-wise floor of the point) uses floor semantics,
not truncation toward zero, and therefore lies in `[0, 1)` in each
component for every finite input point, negative coordinates included. -/
theorem claim_fract_floor_semantics (v : ℝ × ℝ) :
    fractGl v = (v.1 - (⌊v.1⌋ : ℝ), v.2 - (⌊v.2⌋ : ℝ)) ∧
      0 ≤ (fractGl v).1 ∧ (fractGl v).1 < 1 ∧
      0 ≤ (fractGl v).2 ∧ (fractGl v).2 < 1 :=
  ⟨rfl, Int.fract_nonneg v.1, Int.fract_lt_one v.1,
   Int.fract_nonneg v.2, Int.fract_lt_one v.2⟩

/-- C8: `hash`, `noise`, `fbm` and the mesh builder are deterministic: they
are pure functions of their inputs, so equal inputs always produce
identical outputs (there is no hidden entropy source or mutable state in
the embedding, which models the stateless source functions). -/
theorem claim_core_deterministic (p q : ℝ × ℝ) (r s : ℕ)
    (hpq : p = q) (hrs : r = s) :
    hash p = hash q ∧ noise p = noise q ∧ fbm p = fbm q ∧
      buildMesh r = buildMesh s := by
  subst hpq
  subst hrs
  exact ⟨rfl, rfl, rfl, rfl⟩

theorem claim_core_deterministic_witness :
    hash ((0 : ℝ), (0 : ℝ)) = hash ((0 : ℝ), (0 : ℝ)) ∧
      noise ((0 : ℝ), (0 : ℝ)) = noise ((0 : ℝ), (0 : ℝ)) ∧
      fbm ((0 : ℝ), (0 : ℝ)) = fbm ((0 : ℝ), (0 : ℝ)) ∧
      buildMesh 1 = buildMesh 1 :=
  claim_core_deterministic ((0 : ℝ), (0 : ℝ)) ((0 : ℝ), (0 : ℝ)) 1 1 rfl rfl

/-- C9: the vector `sample` hands to `normalize` has `y` component exactly
1, hence squared norm at least 1 and Euclidean length at least 1, so the
normalization never divides by zero; and the returned surface normal has a
strictly positive `y` component (it always points into the upper
hemisphere). -/
theorem claim_normalize_safe (x z : ℝ) :
    (samplePreNormal x z).2.1 = 1 ∧
      1 ≤ norm3Sq (samplePreNormal x z) ∧
      1 ≤ Real.sqrt (norm3Sq (samplePreNormal x z)) ∧
      0 < (sample x z).2.2.1 :=
  ⟨rfl, one_le_norm3Sq_pre x z, one_le_sqrt_norm3Sq_pre x z,
   sample_normal_y_pos x z⟩

/-- C10: the position buffer is row-major (outer loop over `row`, inner
over `col`): the vertex stored at buffer index `row * (resolution+1) + col`
is exactly the one with `x = row - resolution/2` and
`z = col - resolution/2`, and the normal buffer is aligned the same way, so
the quad loop's index arithmetic addresses the geometrically intended grid
corners. -/
theorem claim_row_major_layout (res row col : ℕ)
    (hrow : row ≤ res) (hcol : col ≤ res) :
    (meshPositions res)[row * (res + 1) + col]? = some (vertexPos res row col) ∧
      (vertexPos res row col).1 = (row : ℝ) - (res : ℝ) / 2 ∧
      (vertexPos res row col).2.2 = (col : ℝ) - (res : ℝ) / 2 ∧
      (meshNormals res)[row * (res + 1) + col]? =
        some (vertexNormal res row col) :=
  ⟨meshPositions_getElem res row col hrow hcol, rfl, rfl,
   meshNormals_getElem res row col hrow hcol⟩

theorem claim_row_major_layout_witness :
    ((1 : ℕ) ≤ 1) ∧
      ((meshPositions 1)[1 * (1 + 1) + 0]? = some (vertexPos 1 1 0) ∧
        (vertexPos 1 1 0).1 = ((1 : ℕ) : ℝ) - ((1 : ℕ) : ℝ) / 2 ∧
        (vertexPos 1 1 0).2.2 = ((0 : ℕ) : ℝ) - ((1 : ℕ) : ℝ) / 2 ∧
        (meshNormals 1)[1 * (1 + 1) + 0]? = some (vertexNormal 1 1 0)) :=
  ⟨by decide, claim_row_major_layout 1 1 0 (by decide) (by decide)⟩

end

end Terrain
